import Mathlib

/-!
Shallow embedding of the organization-chart core of the Employ-Mangement-System
repository (src/src/pages/Organization.tsx): the department filter, the
hierarchy builder `buildOrgChart` (lines 59-110), the recursive sibling sort
`sortNodes` (lines 92-108), the expansion-state handling `toggleNode`
(lines 112-120) and the summary counters `stats` (lines 217-223).

Modelling conventions:
* `Employee` keeps exactly the record attributes this core reads
  (`id`, `name`, `department`, `role`, `managerId`).
* The JavaScript `Map` built by `employeeMap.set` (later insertions overwrite
  earlier ones) is modelled by `mapLookup`, a left fold in iteration order.
* The JavaScript truthiness test `!emp.managerId` is false for `undefined` and
  for the empty string; `managerKey` normalises both to `none`.
* The possibly cyclic object graph produced by the mutating second pass is
  represented by `rootIds`/`childIds`; the forest value handed to the renderer
  is the fuel-bounded unfolding `subtree` (fuel = length of the filtered list,
  shown sufficient by the stability theorem for claim C3).
* `Array.prototype.sort` with the role/name comparator is modelled by the
  stable `List.mergeSort` with `nodeLE` (the comparator's "≤ 0" relation);
  `localeCompare` on names is modelled by the total order on `String`.
-/

namespace Org

inductive Role where
  | admin
  | manager
  | employee
deriving DecidableEq

structure Employee where
  id : String
  name : String
  department : String
  role : Role
  managerId : Option String
deriving DecidableEq

/-- The JavaScript test `!emp.managerId` is true when the field is `undefined`
or the empty string; `managerKey` returns the manager reference only when it
is truthy. -/
def managerKey (e : Employee) : Option String :=
  match e.managerId with
  | none => none
  | some s => if s = "" then none else some s

/-- The `employeeMap` lookup: `Map.set` is applied in list order, so the last
record with a given id wins. -/
def mapLookup (es : List Employee) (i : String) : Option Employee :=
  es.foldl (fun acc e => if e.id = i then some e else acc) none

/-- The `employeeMap.has` test. -/
def mapHas (es : List Employee) (i : String) : Bool :=
  (mapLookup es i).isSome

/-- The root test of the second pass:
`!emp.managerId || !employeeMap.has(emp.managerId)`. -/
def isRoot (es : List Employee) (e : Employee) : Bool :=
  match managerKey e with
  | none => true
  | some m => !(mapHas es m)

/-- Ids pushed onto `rootNodes`, in iteration order. -/
def rootIds (es : List Employee) : List String :=
  (es.filter (fun e => isRoot es e)).map (fun e => e.id)

/-- Ids pushed onto `manager.children` for the manager node keyed `m`, in
iteration order.  One entry is pushed per input record taking the child
branch. -/
def childIds (es : List Employee) (m : String) : List String :=
  (es.filter (fun e => !(isRoot es e) && (managerKey e == some m))).map
    (fun e => e.id)

def defaultEmployee : Employee :=
  { id := "", name := "", department := "", role := Role.employee,
    managerId := none }

/-- The record stored in the map node for id `i` (`employeeMap.get(i)`). -/
def getRecord (es : List Employee) (i : String) : Employee :=
  (mapLookup es i).getD defaultEmployee

/-- A hierarchy node: an employee record plus its ordered children, as rendered
by the page. -/
inductive OrgNode where
  | mk (emp : Employee) (children : List OrgNode)

def OrgNode.emp : OrgNode → Employee
  | .mk e _ => e

def OrgNode.children : OrgNode → List OrgNode
  | .mk _ cs => cs

/-- Fuel-bounded unfolding of the node graph built by the second pass: the
node for id `i` together with the children pushed onto it.  Fuel bounds the
depth; the build uses fuel equal to the length of the filtered list, which the
stability theorem (claim C3) shows never truncates a reachable node. -/
def subtree (es : List Employee) : Nat → String → OrgNode
  | 0, i => .mk (getRecord es i) []
  | fuel + 1, i => .mk (getRecord es i) ((childIds es i).map (subtree es fuel))

/-- Lines 60-64: the department filter applied at the head of
`buildOrgChart`. -/
def filterByDept (employees : List Employee) (selectedDepartment : String) :
    List Employee :=
  if selectedDepartment = "all" then employees
  else employees.filter (fun e => e.department == selectedDepartment)

/-- Line 93: `roleOrder = { admin: 0, manager: 1, employee: 2 }`. -/
def roleOrder : Role → Nat
  | .admin => 0
  | .manager => 1
  | .employee => 2

/-- The sort comparator of line 95-99 as a boolean "less than or equal":
role priority first, then the name comparison as tie-break. -/
def nodeLE (a b : OrgNode) : Bool :=
  (roleOrder a.emp.role < roleOrder b.emp.role) ||
    ((roleOrder a.emp.role = roleOrder b.emp.role) && (a.emp.name ≤ b.emp.name))

/-- The `sortNodes` pass applied to one node's subtree: sort the children,
then recurse
into each child (lines 94-106). -/
def sortTree (t : OrgNode) : OrgNode :=
  match t with
  | .mk e cs => .mk e ((cs.attach.map (fun c => sortTree c.1)).mergeSort nodeLE)
termination_by sizeOf t
decreasing_by
  have := List.sizeOf_lt_of_mem c.2
  simp only [OrgNode.mk.sizeOf_spec]
  omega

/-- The `sortNodes` pass on a list of nodes: sort this level, then recursively
sort
every node's children. -/
def sortNodes (nodes : List OrgNode) : List OrgNode :=
  (nodes.mergeSort nodeLE).map sortTree

/-- The body of `buildOrgChart` with explicit unfolding fuel. -/
def buildOrgChartFuel (employees : List Employee) (selectedDepartment : String)
    (fuel : Nat) : List OrgNode :=
  let filteredEmployees := filterByDept employees selectedDepartment
  sortNodes ((rootIds filteredEmployees).map (subtree filteredEmployees fuel))

/-- Lines 59-110: filter, build the node graph, collect roots, sort
recursively. -/
def buildOrgChart (employees : List Employee) (selectedDepartment : String) :
    List OrgNode :=
  buildOrgChartFuel employees selectedDepartment
    (filterByDept employees selectedDepartment).length

/-- The chosen attribute of every record occurring in a tree, depth first. -/
def flatWith {α : Type} (p : Employee → α) (t : OrgNode) : List α :=
  match t with
  | .mk e cs => p e :: (cs.attach.map (fun c => flatWith p c.1)).flatten
termination_by sizeOf t
decreasing_by
  have := List.sizeOf_lt_of_mem c.2
  simp only [OrgNode.mk.sizeOf_spec]
  omega

/-- All ids occurring in a tree, depth first. -/
def flat : OrgNode → List String :=
  flatWith (fun e => e.id)

/-- The chosen attribute of every record occurring in a forest. -/
def flatForestWith {α : Type} (p : Employee → α) (ts : List OrgNode) : List α :=
  (ts.map (flatWith p)).flatten

/-- All ids occurring in a forest. -/
def flatForest (ts : List OrgNode) : List String :=
  (ts.map flat).flatten

/-- Checks that no root-to-node path of the tree revisits an id
(`seen` holds the ids of the strict ancestors). -/
def okPaths (seen : List String) (t : OrgNode) : Bool :=
  match t with
  | .mk e cs =>
      !(seen.contains e.id) && cs.attach.all (fun c => okPaths (e.id :: seen) c.1)
termination_by sizeOf t
decreasing_by
  have := List.sizeOf_lt_of_mem c.2
  simp only [OrgNode.mk.sizeOf_spec]
  omega

/-- Adjacent-pair sortedness of one sibling list under the comparator. -/
def chainLE : List OrgNode → Bool
  | [] => true
  | [_] => true
  | a :: b :: rest => nodeLE a b && chainLE (b :: rest)

/-- Every sibling list of the tree is sorted under the comparator. -/
def sortedTreeB (t : OrgNode) : Bool :=
  match t with
  | .mk _ cs => chainLE cs && cs.attach.all (fun c => sortedTreeB c.1)
termination_by sizeOf t
decreasing_by
  have := List.sizeOf_lt_of_mem c.2
  simp only [OrgNode.mk.sizeOf_spec]
  omega

/-- Every sibling list of the forest, including the top level, is sorted. -/
def sortedForestB (ts : List OrgNode) : Bool :=
  chainLE ts && ts.all (fun t => sortedTreeB t)

/-- The resolvable manager step on ids: the manager reference of the record
stored for `i`, provided it is truthy and resolves inside the lookup. -/
def parentId (es : List Employee) (i : String) : Option String :=
  match mapLookup es i with
  | none => none
  | some e =>
      match managerKey e with
      | none => none
      | some m => if mapHas es m then some m else none

/-- Iterating `parentId` a given number of times. -/
def ancestor (es : List Employee) : Nat → String → Option String
  | 0, i => some i
  | k + 1, i =>
      match parentId es i with
      | none => none
      | some m => ancestor es k m

/-- The ids of a record list, in order. -/
def idsOf (es : List Employee) : List String :=
  es.map (fun e => e.id)

/-- The page state of the Organization component relevant to the claims:
the fetched snapshot, the department list derived from it, the selected
filter, the built forest and the expansion set (a `Set<string>` of employee
ids, modelled as its insertion-ordered element list). -/
structure OrgState where
  employees : List Employee
  departments : List String
  selectedDepartment : String
  orgChart : List OrgNode
  expandedNodes : List String

/-- The renderer's `expandedNodes.has(id)` query (line 146). -/
def isExpanded (s : OrgState) (i : String) : Bool :=
  s.expandedNodes.contains i

/-- Lines 112-120: flip membership of `nodeId` in the expansion set. -/
def toggleNode (s : OrgState) (nodeId : String) : OrgState :=
  if s.expandedNodes.contains nodeId then
    { s with expandedNodes := s.expandedNodes.erase nodeId }
  else
    { s with expandedNodes := s.expandedNodes ++ [nodeId] }

/-- The `useEffect` of lines 25-29: any snapshot or filter change reruns
`buildOrgChart`, which only replaces `orgChart` (line 109). -/
def rebuildChart (s : OrgState) : OrgState :=
  { s with orgChart := buildOrgChart s.employees s.selectedDepartment }

/-- Selecting a department (line 300) followed by the rebuild effect. -/
def setSelectedDepartment (s : OrgState) (d : String) : OrgState :=
  rebuildChart { s with selectedDepartment := d }

/-- Lines 49-50: first-occurrence de-duplication of the snapshot's
departments via `new Set`. -/
def uniqueDepartments (es : List Employee) : List String :=
  es.foldl
    (fun acc e => if acc.contains e.department then acc else acc ++ [e.department])
    []

/-- A fresh snapshot arriving from `fetchEmployees` (lines 46-50) followed by
the rebuild effect. -/
def setEmployees (s : OrgState) (es : List Employee) : OrgState :=
  rebuildChart { s with employees := es, departments := uniqueDepartments es }

structure Stats where
  totalEmployees : Nat
  admins : Nat
  managers : Nat
  employees : Nat
  departments : Nat
deriving DecidableEq

/-- Lines 217-223: the summary counters, computed from the unfiltered
snapshot and the department list, never from the forest. -/
def stats (s : OrgState) : Stats :=
  { totalEmployees := s.employees.length
    admins := (s.employees.filter (fun e => e.role == Role.admin)).length
    managers := (s.employees.filter (fun e => e.role == Role.manager)).length
    employees := (s.employees.filter (fun e => e.role == Role.employee)).length
    departments := s.departments.length }

/-! ### Concrete record lists used as test inputs -/

/-- The spec's worked scenario: Alice (admin), Bob (manager, under Alice),
Carol (employee, under Bob), Dave (employee, under Alice). -/
def demoAlice : Employee :=
  { id := "a", name := "Alice", department := "Eng", role := Role.admin,
    managerId := none }

def demoBob : Employee :=
  { id := "b", name := "Bob", department := "Eng", role := Role.manager,
    managerId := some "a" }

def demoCarol : Employee :=
  { id := "c", name := "Carol", department := "Eng", role := Role.employee,
    managerId := some "b" }

def demoDave : Employee :=
  { id := "d", name := "Dave", department := "Eng", role := Role.employee,
    managerId := some "a" }

def demoEmployees : List Employee :=
  [demoAlice, demoBob, demoCarol, demoDave]

/-- A two-element manager cycle. -/
def cycA : Employee :=
  { id := "a", name := "A", department := "Eng", role := Role.employee,
    managerId := some "b" }

def cycB : Employee :=
  { id := "b", name := "B", department := "Eng", role := Role.employee,
    managerId := some "a" }

/-- A record naming itself as its own manager. -/
def selfX : Employee :=
  { id := "x", name := "X", department := "Eng", role := Role.employee,
    managerId := some "x" }

/-- Two records sharing one id (a precondition violation). -/
def dupX : Employee :=
  { id := "a", name := "X", department := "Eng", role := Role.employee,
    managerId := none }

def dupY : Employee :=
  { id := "a", name := "Y", department := "Eng", role := Role.employee,
    managerId := none }

/-- A record whose id is the empty string, and a record whose `managerId` is
the (falsy) empty string. -/
def emptyIdRec : Employee :=
  { id := "", name := "EmptyId", department := "Eng", role := Role.employee,
    managerId := none }

def falsyX : Employee :=
  { id := "x", name := "FalsyX", department := "Eng", role := Role.employee,
    managerId := some "" }

/-- A cross-department pair: a Sales employee managed from Eng. -/
def engMgr : Employee :=
  { id := "m", name := "EngMgr", department := "Eng", role := Role.manager,
    managerId := none }

def salesEmp : Employee :=
  { id := "s", name := "SalesEmp", department := "Sales", role := Role.employee,
    managerId := some "m" }

/-! ### Lookup-map lemmas -/

theorem mapLookup_foldl (es : List Employee) (i : String) :
    ∀ acc, es.foldl (fun acc e => if e.id = i then some e else acc) acc
      = (mapLookup es i).or acc := by
  induction es with
  | nil => intro acc; cases acc <;> rfl
  | cons a tl ih =>
      intro acc
      have hcons : mapLookup (a :: tl) i
          = (mapLookup tl i).or (if a.id = i then some a else none) := by
        simp only [mapLookup, List.foldl_cons]
        exact ih (if a.id = i then some a else none)
      rw [List.foldl_cons, ih, hcons]
      cases hX : mapLookup tl i <;> by_cases h : a.id = i <;>
        simp [h, Option.or]

theorem mapLookup_cons (a : Employee) (tl : List Employee) (i : String) :
    mapLookup (a :: tl) i
      = (mapLookup tl i).or (if a.id = i then some a else none) := by
  simp only [mapLookup, List.foldl_cons]
  exact mapLookup_foldl tl i (if a.id = i then some a else none)

theorem mapLookup_mem {es : List Employee} {i : String} {e : Employee}
    (h : mapLookup es i = some e) : e ∈ es ∧ e.id = i := by
  induction es with
  | nil => simp [mapLookup] at h
  | cons a tl ih =>
      rw [mapLookup_cons] at h
      cases htl : mapLookup tl i with
      | some v =>
          rw [htl] at h
          have hv : v = e := by simpa [Option.or] using h
          subst hv
          rcases ih htl with ⟨hm, hid⟩
          exact ⟨List.mem_cons_of_mem _ hm, hid⟩
      | none =>
          rw [htl] at h
          by_cases ha : a.id = i
          · have hae : a = e := by simpa [ha, Option.or] using h
            subst hae
            exact ⟨List.mem_cons_self _ _, ha⟩
          · simp [ha, Option.or] at h

theorem mapLookup_eq_none_iff {es : List Employee} {i : String} :
    mapLookup es i = none ↔ ∀ e ∈ es, e.id ≠ i := by
  induction es with
  | nil => simp [mapLookup]
  | cons a tl ih =>
      rw [mapLookup_cons]
      constructor
      · intro h e he
        have h1 : mapLookup tl i = none := by
          cases htl : mapLookup tl i with
          | none => rfl
          | some v => rw [htl] at h; simp [Option.or] at h
        have h2 : a.id ≠ i := by
          intro ha
          rw [h1] at h
          simp [ha, Option.or] at h
        rcases List.mem_cons.mp he with rfl | htl'
        · exact h2
        · exact ih.mp h1 e htl'
      · intro h
        have h1 : mapLookup tl i = none :=
          ih.mpr (fun e he => h e (List.mem_cons_of_mem _ he))
        have h2 : a.id ≠ i := h a (List.mem_cons_self _ _)
        rw [h1]
        simp [h2, Option.or]

theorem mapLookup_isSome_iff {es : List Employee} {i : String} :
    (mapLookup es i).isSome = true ↔ i ∈ idsOf es := by
  rw [Option.isSome_iff_ne_none]
  constructor
  · intro h
    have := mt mapLookup_eq_none_iff.mpr h
    push_neg at this
    rcases this with ⟨e, hm, hid⟩
    exact List.mem_map.mpr ⟨e, hm, hid⟩
  · intro h hnone
    rcases List.mem_map.mp h with ⟨e, hm, hid⟩
    exact mapLookup_eq_none_iff.mp hnone e hm hid

theorem mapHas_iff {es : List Employee} {i : String} :
    mapHas es i = true ↔ i ∈ idsOf es := by
  rw [mapHas, mapLookup_isSome_iff]

theorem mapLookup_self {es : List Employee} (h : (idsOf es).Nodup) {e : Employee}
    (he : e ∈ es) : mapLookup es e.id = some e := by
  induction es with
  | nil => simp at he
  | cons a tl ih =>
      rw [mapLookup_cons]
      rcases List.mem_cons.mp he with rfl | htl
      · have hnone : mapLookup tl e.id = none := by
          rw [mapLookup_eq_none_iff]
          intro e' he' hid
          have : e.id ∈ idsOf tl := List.mem_map.mpr ⟨e', he', hid⟩
          exact (List.nodup_cons.mp h).1 this
        simp [hnone, Option.or]
      · have := ih (List.nodup_cons.mp h).2 htl
        simp [this, Option.or]

theorem getRecord_id {es : List Employee} {i : String} (h : i ∈ idsOf es) :
    (getRecord es i).id = i := by
  rcases List.mem_map.mp h with ⟨e, hm, hid⟩
  cases hl : mapLookup es i with
  | none =>
      exact absurd (mapLookup_eq_none_iff.mp hl e hm) (by simp [hid])
  | some v =>
      simp [getRecord, hl, (mapLookup_mem hl).2]

theorem getRecord_self {es : List Employee} (h : (idsOf es).Nodup) {e : Employee}
    (he : e ∈ es) : getRecord es e.id = e := by
  simp [getRecord, mapLookup_self h he]

theorem mem_id_unique {es : List Employee} (h : (idsOf es).Nodup) {e e' : Employee}
    (he : e ∈ es) (he' : e' ∈ es) (hid : e.id = e'.id) : e = e' :=
  List.inj_on_of_nodup_map h he he' hid

/-! ### Bridging records and the parent step on ids -/

theorem isRoot_false_iff {es : List Employee} {e : Employee} :
    isRoot es e = false ↔ ∃ m, managerKey e = some m ∧ mapHas es m = true := by
  unfold isRoot
  cases hk : managerKey e with
  | none => simp
  | some m => cases hh : mapHas es m <;> simp [hh]

theorem parentId_lookup_none {es : List Employee} {i : String}
    (hl : mapLookup es i = none) : parentId es i = none := by
  unfold parentId
  rw [hl]

theorem parentId_lookup_some {es : List Employee} {i : String} {e : Employee}
    (hl : mapLookup es i = some e) :
    parentId es i
      = match managerKey e with
        | none => none
        | some m => if mapHas es m then some m else none := by
  unfold parentId
  rw [hl]

theorem parentId_key_none {es : List Employee} {i : String} {e : Employee}
    (hl : mapLookup es i = some e) (hk : managerKey e = none) :
    parentId es i = none := by
  rw [parentId_lookup_some hl, hk]

theorem parentId_key_some {es : List Employee} {i : String} {e : Employee}
    {m : String} (hl : mapLookup es i = some e) (hk : managerKey e = some m) :
    parentId es i = if mapHas es m = true then some m else none := by
  rw [parentId_lookup_some hl, hk]

theorem parentId_none_iff_isRoot {es : List Employee} (h : (idsOf es).Nodup)
    {e : Employee} (he : e ∈ es) :
    parentId es e.id = none ↔ isRoot es e = true := by
  cases hk : managerKey e with
  | none =>
      rw [parentId_key_none (mapLookup_self h he) hk]
      unfold isRoot
      rw [hk]
      simp
  | some m =>
      rw [parentId_key_some (mapLookup_self h he) hk]
      unfold isRoot
      rw [hk]
      cases hh : mapHas es m <;> simp [hh]

theorem parentId_some_iff {es : List Employee} (h : (idsOf es).Nodup)
    {e : Employee} (he : e ∈ es) {m : String} :
    parentId es e.id = some m ↔ managerKey e = some m ∧ mapHas es m = true := by
  cases hk : managerKey e with
  | none =>
      rw [parentId_key_none (mapLookup_self h he) hk]
      simp
  | some m' =>
      rw [parentId_key_some (mapLookup_self h he) hk]
      cases hh : mapHas es m' with
      | true =>
          rw [if_pos rfl]
          constructor
          · intro hsome
            obtain rfl : m' = m := by injection hsome
            exact ⟨rfl, hh⟩
          · rintro ⟨hsome, _⟩
            exact hsome
      | false =>
          rw [if_neg (by simp)]
          constructor
          · intro hsome; exact absurd hsome (by simp)
          · rintro ⟨hsome, hmh⟩
            obtain rfl : m' = m := by injection hsome
            simp [hmh] at hh

theorem parentId_mem {es : List Employee} {i m : String}
    (h : parentId es i = some m) : i ∈ idsOf es ∧ m ∈ idsOf es := by
  cases hl : mapLookup es i with
  | none => rw [parentId_lookup_none hl] at h; exact absurd h (by simp)
  | some e =>
      rcases mapLookup_mem hl with ⟨hm, hid⟩
      cases hk : managerKey e with
      | none =>
          rw [parentId_key_none hl hk] at h
          exact absurd h (by simp)
      | some m' =>
          rw [parentId_key_some hl hk] at h
          by_cases hh : mapHas es m' = true
          · rw [if_pos hh] at h
            obtain rfl : m' = m := by injection h
            exact ⟨List.mem_map.mpr ⟨e, hm, hid⟩, mapHas_iff.mp hh⟩
          · rw [if_neg hh] at h
            exact absurd h (by simp)

theorem rootIds_iff {es : List Employee} (h : (idsOf es).Nodup) {r : String} :
    r ∈ rootIds es ↔ r ∈ idsOf es ∧ parentId es r = none := by
  unfold rootIds
  constructor
  · intro hr
    rcases List.mem_map.mp hr with ⟨e, he, hid⟩
    rcases List.mem_filter.mp he with ⟨hm, hroot⟩
    subst hid
    exact ⟨List.mem_map.mpr ⟨e, hm, rfl⟩, (parentId_none_iff_isRoot h hm).mpr hroot⟩
  · rintro ⟨hr, hp⟩
    rcases List.mem_map.mp hr with ⟨e, hm, hid⟩
    subst hid
    exact List.mem_map.mpr
      ⟨e, List.mem_filter.mpr ⟨hm, (parentId_none_iff_isRoot h hm).mp hp⟩, rfl⟩

theorem childIds_iff {es : List Employee} (h : (idsOf es).Nodup) {c m : String} :
    c ∈ childIds es m ↔ parentId es c = some m := by
  unfold childIds
  constructor
  · intro hc
    rcases List.mem_map.mp hc with ⟨e, he, hid⟩
    rcases List.mem_filter.mp he with ⟨hm, hcond⟩
    simp only [Bool.and_eq_true, Bool.not_eq_true', beq_iff_eq] at hcond
    obtain ⟨hroot', hkey'⟩ := hcond
    rcases isRoot_false_iff.mp hroot' with ⟨m', hk', hh'⟩
    rw [hkey'] at hk'
    obtain rfl : m = m' := by injection hk'
    subst hid
    exact (parentId_some_iff h hm).mpr ⟨hkey', hh'⟩
  · intro hp
    rcases parentId_mem hp with ⟨hc, _⟩
    rcases List.mem_map.mp hc with ⟨e, hm, hid⟩
    subst hid
    rcases (parentId_some_iff h hm).mp hp with ⟨hk, hh⟩
    have hroot : isRoot es e = false := isRoot_false_iff.mpr ⟨m, hk, hh⟩
    exact List.mem_map.mpr
      ⟨e, List.mem_filter.mpr ⟨hm, by simp [hroot, hk]⟩, rfl⟩

theorem rootIds_sublist (es : List Employee) : (rootIds es).Sublist (idsOf es) :=
  List.Sublist.map _ (List.filter_sublist es)

theorem childIds_sublist (es : List Employee) (m : String) :
    (childIds es m).Sublist (idsOf es) :=
  List.Sublist.map _ (List.filter_sublist es)

theorem rootIds_nodup {es : List Employee} (h : (idsOf es).Nodup) :
    (rootIds es).Nodup :=
  List.Nodup.sublist (rootIds_sublist es) h

theorem childIds_nodup {es : List Employee} (h : (idsOf es).Nodup) (m : String) :
    (childIds es m).Nodup :=
  List.Nodup.sublist (childIds_sublist es m) h

theorem childIds_mem_ids {es : List Employee} {c m : String}
    (h : c ∈ childIds es m) : c ∈ idsOf es :=
  List.Sublist.mem h (childIds_sublist es m)

theorem rootIds_mem_ids {es : List Employee} {r : String}
    (h : r ∈ rootIds es) : r ∈ idsOf es :=
  List.Sublist.mem h (rootIds_sublist es)

/-! ### Ancestor-chain lemmas -/

theorem ancestor_zero (es : List Employee) (i : String) :
    ancestor es 0 i = some i := rfl

theorem ancestor_add (es : List Employee) (a b : Nat) (i : String) :
    ancestor es (a + b) i = (ancestor es a i).bind (fun j => ancestor es b j) := by
  induction a generalizing i with
  | zero => simp [ancestor]
  | succ a ih =>
      rw [Nat.succ_add]
      show ancestor es ((a + b) + 1) i = _
      cases hp : parentId es i with
      | none => simp [ancestor, hp]
      | some m => simp [ancestor, hp, ih]

theorem ancestor_one (es : List Employee) (i : String) :
    ancestor es 1 i = parentId es i := by
  cases hp : parentId es i <;> simp [ancestor, hp]

theorem ancestor_none_mono {es : List Employee} {k k' : Nat} {i : String}
    (h : ancestor es k i = none) (hle : k ≤ k') : ancestor es k' i = none := by
  have hk : k' = k + (k' - k) := by omega
  rw [hk, ancestor_add, h]
  rfl

theorem ancestor_some_of_le {es : List Employee} {k k' : Nat} {i j : String}
    (h : ancestor es k i = some j) (hle : k' ≤ k) :
    ∃ j', ancestor es k' i = some j' := by
  cases hk : ancestor es k' i with
  | none => rw [ancestor_none_mono hk hle] at h; exact absurd h (by simp)
  | some j' => exact ⟨j', rfl⟩

theorem ancestor_mem {es : List Employee} {k : Nat} {i j : String}
    (hi : i ∈ idsOf es) (h : ancestor es k i = some j) : j ∈ idsOf es := by
  induction k generalizing i with
  | zero => rw [ancestor_zero] at h; cases h; exact hi
  | succ k ih =>
      cases hp : parentId es i with
      | none => simp [ancestor, hp] at h
      | some m =>
          simp only [ancestor, hp] at h
          exact ih (parentId_mem hp).2 h

/-- The chain from `i` ends after exactly `d` steps at a parentless id. -/
def termAt (es : List Employee) (i : String) (d : Nat) : Prop :=
  ∃ r, ancestor es d i = some r ∧ parentId es r = none

theorem termAt_succ_none {es : List Employee} {i : String} {d : Nat}
    (h : termAt es i d) : ancestor es (d + 1) i = none := by
  rcases h with ⟨r, hr, hp⟩
  rw [ancestor_add, hr]
  simp [ancestor_one, hp]

theorem term_inj {es : List Employee} {i : String} {d : Nat}
    (h : termAt es i d) {a b : Nat} (hab : a < b) (hbd : b ≤ d) :
    ancestor es a i ≠ ancestor es b i := by
  rcases h with ⟨r, hr, hp⟩
  intro heq
  have hnone : ancestor es (a + (d + 1 - b)) i = none := by
    rw [ancestor_add, heq, ← ancestor_add]
    have : b + (d + 1 - b) = d + 1 := by omega
    rw [this]
    exact termAt_succ_none ⟨r, hr, hp⟩
  have : ancestor es d i = none :=
    ancestor_none_mono hnone (by omega)
  rw [this] at hr
  exact absurd hr (by simp)

theorem term_card {es : List Employee} {i : String}
    (hi : i ∈ idsOf es) {d : Nat} (h : termAt es i d) : d + 1 ≤ es.length := by
  have hrange : ((List.range (d + 1)).map (fun k => ancestor es k i)).Nodup := by
    refine List.Nodup.map_on ?_ (List.nodup_range (d + 1))
    intro x hx y hy hxy
    rcases Nat.lt_trichotomy x y with hlt | heq | hgt
    · exact absurd hxy (term_inj h hlt (by
        have := List.mem_range.mp hy; omega))
    · exact heq
    · exact absurd hxy.symm (term_inj h hgt (by
        have := List.mem_range.mp hx; omega))
  have hsub : ((List.range (d + 1)).map (fun k => ancestor es k i))
      ⊆ (idsOf es).map some := by
    intro o ho
    rcases List.mem_map.mp ho with ⟨k, hk, rfl⟩
    have hkd : k ≤ d := by have := List.mem_range.mp hk; omega
    rcases h with ⟨r, hr, _⟩
    rcases ancestor_some_of_le hr hkd with ⟨j, hj⟩
    rw [hj]
    exact List.mem_map.mpr ⟨j, ancestor_mem hi hj, rfl⟩
  have := List.Subperm.length_le (List.Nodup.subperm hrange hsub)
  simp only [List.length_map, List.length_range, idsOf] at this
  exact this

theorem termAt_child {es : List Employee} {c i : String}
    (hp : parentId es c = some i) {d : Nat} (h : termAt es i d) :
    termAt es c (d + 1) := by
  rcases h with ⟨r, hr, hroot⟩
  refine ⟨r, ?_, hroot⟩
  have h1 : (1 : Nat) + d = d + 1 := by omega
  rw [← h1, ancestor_add, ancestor_one, hp, Option.some_bind]
  exact hr

theorem no_cycle_of_term {es : List Employee} {i : String} {d : Nat}
    (h : termAt es i d) (k : Nat) (hk : 1 ≤ k) : ancestor es k i ≠ some i := by
  intro hcyc
  have hmul : ∀ t, ancestor es (t * k) i = some i := by
    intro t
    induction t with
    | zero => simp [ancestor_zero]
    | succ t ih =>
        have : (t + 1) * k = t * k + k := by ring
        rw [this, ancestor_add, ih]
        exact hcyc
  have hbig : ancestor es ((d + 1) * k) i = none :=
    ancestor_none_mono (termAt_succ_none h) (by nlinarith)
  rw [hmul (d + 1)] at hbig
  exact absurd hbig (by simp)

/-! ### Unfolding lemmas for the tree functions -/

theorem subtree_zero (es : List Employee) (i : String) :
    subtree es 0 i = .mk (getRecord es i) [] := rfl

theorem subtree_succ (es : List Employee) (fuel : Nat) (i : String) :
    subtree es (fuel + 1) i
      = .mk (getRecord es i) ((childIds es i).map (subtree es fuel)) := rfl

theorem flatWith_mk {α : Type} (p : Employee → α) (e : Employee)
    (cs : List OrgNode) :
    flatWith p (.mk e cs) = p e :: (cs.map (flatWith p)).flatten := by
  rw [flatWith, List.attach_map_coe]

theorem flat_mk (e : Employee) (cs : List OrgNode) :
    flat (.mk e cs) = e.id :: (cs.map flat).flatten :=
  flatWith_mk (fun e => e.id) e cs

theorem sortTree_mk (e : Employee) (cs : List OrgNode) :
    sortTree (.mk e cs) = .mk e ((cs.map sortTree).mergeSort nodeLE) := by
  rw [sortTree, List.attach_map_coe]

theorem attach_all {α : Type} (l : List α) (f : α → Bool) :
    l.attach.all (fun c => f c.1) = l.all f := by
  rw [Bool.eq_iff_iff, List.all_eq_true, List.all_eq_true]
  constructor
  · intro h a ha; exact h ⟨a, ha⟩ (List.mem_attach l ⟨a, ha⟩)
  · intro h x _; exact h x.1 x.2

theorem okPaths_mk (seen : List String) (e : Employee) (cs : List OrgNode) :
    okPaths seen (.mk e cs)
      = (!(seen.contains e.id) && cs.all (fun c => okPaths (e.id :: seen) c)) := by
  rw [okPaths, attach_all]

theorem sortedTreeB_mk (e : Employee) (cs : List OrgNode) :
    sortedTreeB (.mk e cs) = (chainLE cs && cs.all (fun c => sortedTreeB c)) := by
  rw [sortedTreeB, attach_all]

/-! ### Stability: the fuel used by the build never truncates a reachable
node -/

theorem subtree_stable {es : List Employee} (h : (idsOf es).Nodup) :
    ∀ fuel₁ fuel₂ {i : String} {d : Nat}, i ∈ idsOf es → termAt es i d →
      es.length ≤ d + fuel₁ → es.length ≤ d + fuel₂ →
      subtree es fuel₁ i = subtree es fuel₂ i := by
  intro fuel₁
  induction fuel₁ with
  | zero =>
      intro fuel₂ i d hi ht h1 _
      exact absurd (term_card hi ht) (by omega)
  | succ f ih =>
      intro fuel₂ i d hi ht h1 h2
      have hd1 : d + 1 ≤ es.length := term_card hi ht
      cases fuel₂ with
      | zero => exact absurd hd1 (by omega)
      | succ g =>
          rw [subtree_succ, subtree_succ]
          congr 1
          apply List.map_congr_left
          intro c hc
          have hpc : parentId es c = some i := (childIds_iff h).mp hc
          exact ih g (childIds_mem_ids hc) (termAt_child hpc ht)
            (by omega) (by omega)

/-! ### Occurrence counts inside an unfolded subtree -/

theorem sum_map_eq_one {α : Type} {l : List α} {f : α → Nat} {c : α}
    (hnd : l.Nodup) (hc : c ∈ l) (h1 : f c = 1)
    (h0 : ∀ x ∈ l, x ≠ c → f x = 0) : (l.map f).sum = 1 := by
  induction l with
  | nil => simp at hc
  | cons a tl ih =>
      rcases List.nodup_cons.mp hnd with ⟨hna, hntl⟩
      rcases List.mem_cons.mp hc with rfl | htl
      · have hz : (tl.map f).sum = 0 := by
          apply List.sum_eq_zero
          intro x hx
          rcases List.mem_map.mp hx with ⟨y, hy, rfl⟩
          exact h0 y (List.mem_cons_of_mem _ hy)
            (fun hyc => hna (hyc ▸ hy))
        simp [h1, hz]
      · have hza : f a = 0 :=
          h0 a (List.mem_cons_self _ _) (fun hac => hna (hac ▸ htl))
        have := ih hntl htl
          (fun x hx hxc => h0 x (List.mem_cons_of_mem _ hx) hxc)
        simp [hza, this]

theorem count_flat_subtree_zero {es : List Employee} (h : (idsOf es).Nodup)
    {j : String} :
    ∀ fuel {i : String}, i ∈ idsOf es → (∀ k, ancestor es k j ≠ some i) →
      (flat (subtree es fuel i)).count j = 0 := by
  intro fuel
  induction fuel with
  | zero =>
      intro i hi hnd
      have hji : ¬(i = j) := by
        intro hij
        exact hnd 0 (by rw [ancestor_zero, hij])
      rw [subtree_zero, flat_mk]
      simp [List.count_cons, getRecord_id hi, hji]
  | succ f ih =>
      intro i hi hnd
      have hji : ¬(i = j) := by
        intro hij
        exact hnd 0 (by rw [ancestor_zero, hij])
      rw [subtree_succ, flat_mk, List.map_map, List.count_cons,
        List.count_flatten, List.map_map, getRecord_id hi]
      have hz : ∀ x ∈ (childIds es i).map ((List.count j) ∘ flat ∘ subtree es f),
          x = 0 := by
        intro x hx
        rcases List.mem_map.mp hx with ⟨c, hcmem, rfl⟩
        have hpc : parentId es c = some i := (childIds_iff h).mp hcmem
        have hndc : ∀ k, ancestor es k j ≠ some c := by
          intro k hk
          apply hnd (k + 1)
          rw [ancestor_add, hk, Option.some_bind, ancestor_one]
          exact hpc
        exact ih (childIds_mem_ids hcmem) hndc
      simp [List.sum_eq_zero hz, hji]

theorem count_flat_subtree_one {es : List Employee} (h : (idsOf es).Nodup)
    {j : String} :
    ∀ fuel {i : String} {d : Nat}, i ∈ idsOf es → termAt es i d →
      es.length ≤ d + fuel → (∃ k, ancestor es k j = some i) →
      (flat (subtree es fuel i)).count j = 1 := by
  intro fuel
  induction fuel with
  | zero =>
      intro i d hi ht h1 _
      exact absurd (term_card hi ht) (by omega)
  | succ f ih =>
      intro i d hi ht h1 hdesc
      rw [subtree_succ, flat_mk, List.map_map, List.count_cons,
        List.count_flatten, List.map_map, getRecord_id hi]
      rcases hdesc with ⟨k, hk⟩
      by_cases hji : j = i
      · subst hji
        have hz : ∀ x ∈ (childIds es j).map ((List.count j) ∘ flat ∘ subtree es f),
            x = 0 := by
          intro x hx
          rcases List.mem_map.mp hx with ⟨c, hcmem, rfl⟩
          have hpc : parentId es c = some j := (childIds_iff h).mp hcmem
          have hndc : ∀ k', ancestor es k' j ≠ some c := by
            intro k' hk'
            apply no_cycle_of_term ht (k' + 1) (by omega)
            rw [ancestor_add, hk', Option.some_bind, ancestor_one]
            exact hpc
          exact count_flat_subtree_zero h f (childIds_mem_ids hcmem) hndc
        simp [List.sum_eq_zero hz]
      · -- j sits strictly below i: its chain enters i through exactly one
        -- child of i
        have hk1 : k ≠ 0 := by
          intro hk0
          subst hk0
          rw [ancestor_zero] at hk
          exact hji (by injection hk)
        obtain ⟨k', rfl⟩ : ∃ k', k = k' + 1 := ⟨k - 1, by omega⟩
        have hstep : ∃ c, ancestor es k' j = some c ∧ parentId es c = some i := by
          rw [ancestor_add] at hk
          cases hc : ancestor es k' j with
          | none => rw [hc] at hk; exact absurd hk (by simp)
          | some c =>
              rw [hc, Option.some_bind, ancestor_one] at hk
              exact ⟨c, rfl, hk⟩
        rcases hstep with ⟨c, hkc, hpc⟩
        have hcmem : c ∈ childIds es i := (childIds_iff h).mpr hpc
        have hcterm : termAt es c (d + 1) := termAt_child hpc ht
        have hcids : c ∈ idsOf es := (parentId_mem hpc).1
        -- j's own chain terminates at depth k' + d + 1
        have hjterm : termAt es j (k' + (d + 1)) := by
          rcases hcterm with ⟨r, hr, hroot⟩
          refine ⟨r, ?_, hroot⟩
          rw [ancestor_add, hkc, Option.some_bind]
          exact hr
        have hone : (List.count j ∘ flat ∘ subtree es f) c = 1 := by
          show (flat (subtree es f c)).count j = 1
          exact ih hcids hcterm (by omega) ⟨k', hkc⟩
        have hzero : ∀ c' ∈ childIds es i, c' ≠ c →
            (List.count j ∘ flat ∘ subtree es f) c' = 0 := by
          intro c' hc'mem hc'c
          have hpc' : parentId es c' = some i := (childIds_iff h).mp hc'mem
          have hndc' : ∀ m, ancestor es m j ≠ some c' := by
            intro m hm
            -- both c and c' would sit on j's terminating chain, one step
            -- before i
            have hmi : ancestor es (m + 1) j = some i := by
              rw [ancestor_add, hm, Option.some_bind, ancestor_one]
              exact hpc'
            have hki : ancestor es (k' + 1) j = some i := hk
            have hD : ancestor es (k' + (d + 1) + 1) j = none :=
              termAt_succ_none hjterm
            have hmle : m ≤ k' + (d + 1) := by
              by_contra hgt
              push_neg at hgt
              have := ancestor_none_mono hD (by omega : k' + (d + 1) + 1 ≤ m)
              rw [this] at hm
              exact absurd hm (by simp)
            have hmne : m ≠ k' + (d + 1) := by
              intro hmeq
              rcases hjterm with ⟨r, hr, hroot⟩
              rw [hmeq, hr] at hm
              obtain rfl : c' = r := by injection hm.symm
              rw [hroot] at hpc'
              exact absurd hpc' (by simp)
            have hne : m + 1 ≠ k' + 1 := by
              intro heq
              obtain rfl : m = k' := by omega
              rw [hkc] at hm
              have hcc : c = c' := by injection hm
              exact hc'c hcc.symm
            rcases Nat.lt_or_ge (m + 1) (k' + 1) with hlt | hge
            · exact term_inj hjterm hlt (by omega) (hmi.trans hki.symm)
            · have hlt' : k' + 1 < m + 1 := by omega
              exact term_inj hjterm hlt' (by omega) (hki.trans hmi.symm)
          exact count_flat_subtree_zero h f (childIds_mem_ids hc'mem) hndc'
        have hsum := sum_map_eq_one (childIds_nodup h i) hcmem hone hzero
        have hij : ¬(i = j) := fun hij => hji hij.symm
        simp [hsum, hij]

/-! ### The recursive sort permutes each sibling list and preserves records -/

theorem flatten_perm_of_forall {α β : Type} {l : List α} {f g : α → List β}
    (h : ∀ a ∈ l, (f a).Perm (g a)) :
    ((l.map f).flatten).Perm ((l.map g).flatten) := by
  induction l with
  | nil => exact List.Perm.refl _
  | cons a tl ih =>
      simp only [List.map_cons, List.flatten_cons]
      exact List.Perm.append (h a (List.mem_cons_self _ _))
        (ih fun x hx => h x (List.mem_cons_of_mem _ hx))

theorem all_perm {α : Type} {l l' : List α} (h : l.Perm l') (p : α → Bool) :
    l.all p = l'.all p := by
  rw [Bool.eq_iff_iff, List.all_eq_true, List.all_eq_true]
  exact ⟨fun ha x hx => ha x (h.mem_iff.mpr hx),
    fun ha x hx => ha x (h.mem_iff.mp hx)⟩

theorem all_congr_of_forall {α : Type} {l : List α} {p q : α → Bool}
    (h : ∀ a ∈ l, p a = q a) : l.all p = l.all q := by
  rw [Bool.eq_iff_iff, List.all_eq_true, List.all_eq_true]
  constructor
  · intro ha x hx; rw [← h x hx]; exact ha x hx
  · intro ha x hx; rw [h x hx]; exact ha x hx

theorem emp_sortTree (t : OrgNode) : (sortTree t).emp = t.emp := by
  cases t with
  | mk e cs => rw [sortTree_mk]; rfl

theorem nodeLE_sortTree (a b : OrgNode) :
    nodeLE (sortTree a) (sortTree b) = nodeLE a b := by
  unfold nodeLE
  rw [emp_sortTree, emp_sortTree]

theorem flatWith_sortTree {α : Type} (p : Employee → α) :
    ∀ t, (flatWith p (sortTree t)).Perm (flatWith p t) := by
  intro t
  induction t using sortTree.induct with
  | _ e cs ih =>
      rw [sortTree_mk, flatWith_mk, flatWith_mk]
      refine List.Perm.cons _ ?_
      have h1 : (((cs.map sortTree).mergeSort nodeLE).map (flatWith p)).flatten.Perm
          (((cs.map sortTree)).map (flatWith p)).flatten :=
        List.Perm.flatten (List.Perm.map _ (List.mergeSort_perm _ _))
      refine h1.trans ?_
      rw [List.map_map]
      exact flatten_perm_of_forall (fun c hc => by simpa using ih ⟨c, hc⟩)

theorem flatForestWith_sortNodes {α : Type} (p : Employee → α)
    (ts : List OrgNode) :
    (flatForestWith p (sortNodes ts)).Perm (flatForestWith p ts) := by
  unfold flatForestWith sortNodes
  have h1 : (((ts.mergeSort nodeLE).map sortTree).map (flatWith p)).flatten.Perm
      ((ts.mergeSort nodeLE).map (flatWith p)).flatten := by
    rw [List.map_map]
    exact flatten_perm_of_forall (fun c _ => by simpa using flatWith_sortTree p c)
  exact h1.trans
    (List.Perm.flatten (List.Perm.map _ (List.mergeSort_perm _ _)))

theorem flatForest_sortNodes (ts : List OrgNode) :
    (flatForest (sortNodes ts)).Perm (flatForest ts) :=
  flatForestWith_sortNodes (fun e => e.id) ts

/-! ### Sortedness of the returned forest -/

theorem nodeLE_trans (a b c : OrgNode) (hab : nodeLE a b = true)
    (hbc : nodeLE b c = true) : nodeLE a c = true := by
  simp only [nodeLE, Bool.or_eq_true, Bool.and_eq_true, decide_eq_true_eq] at *
  rcases hab with h1 | ⟨h1, h1'⟩ <;> rcases hbc with h2 | ⟨h2, h2'⟩
  · exact Or.inl (by omega)
  · exact Or.inl (by omega)
  · exact Or.inl (by omega)
  · exact Or.inr ⟨by omega, le_trans h1' h2'⟩

theorem nodeLE_total (a b : OrgNode) : (nodeLE a b || nodeLE b a) = true := by
  simp only [nodeLE, Bool.or_eq_true, Bool.and_eq_true, decide_eq_true_eq]
  rcases Nat.lt_trichotomy (roleOrder a.emp.role) (roleOrder b.emp.role) with
    h | h | h
  · exact Or.inl (Or.inl h)
  · rcases le_total a.emp.name b.emp.name with hn | hn
    · exact Or.inl (Or.inr ⟨h, hn⟩)
    · exact Or.inr (Or.inr ⟨h.symm, hn⟩)
  · exact Or.inr (Or.inl h)

theorem chainLE_of_pairwise :
    ∀ {l : List OrgNode}, List.Pairwise (fun a b => nodeLE a b = true) l →
      chainLE l = true := by
  intro l
  induction l with
  | nil => intro _; rfl
  | cons a tl ih =>
      intro hp
      cases tl with
      | nil => rfl
      | cons b tl' =>
          rcases List.pairwise_cons.mp hp with ⟨hab, htl⟩
          have h1 : nodeLE a b = true := hab b (List.mem_cons_self _ _)
          rw [chainLE, h1, ih htl]
          rfl

theorem sortedTreeB_sortTree : ∀ t, sortedTreeB (sortTree t) = true := by
  intro t
  induction t using sortTree.induct with
  | _ e cs ih =>
      rw [sortTree_mk, sortedTreeB_mk, Bool.and_eq_true]
      constructor
      · exact chainLE_of_pairwise
          (List.sorted_mergeSort nodeLE_trans nodeLE_total (cs.map sortTree))
      · rw [List.all_eq_true]
        intro x hx
        have hx' : x ∈ cs.map sortTree :=
          (List.mergeSort_perm (cs.map sortTree) nodeLE).mem_iff.mp hx
        rcases List.mem_map.mp hx' with ⟨c, hc, rfl⟩
        exact ih ⟨c, hc⟩

/-! ### Paths in the unfolded forest never revisit an id -/

theorem contains_iff {l : List String} {a : String} :
    l.contains a = true ↔ a ∈ l := by
  simp [List.contains]

theorem okPaths_sortTree : ∀ (t : OrgNode) (seen : List String),
    okPaths seen (sortTree t) = okPaths seen t := by
  intro t
  induction t using sortTree.induct with
  | _ e cs ih =>
      intro seen
      rw [sortTree_mk, okPaths_mk, okPaths_mk]
      congr 1
      rw [all_perm (List.mergeSort_perm (cs.map sortTree) nodeLE), List.all_map]
      exact all_congr_of_forall
        (fun c hc => by simpa using ih ⟨c, hc⟩ (e.id :: seen))

theorem okPaths_subtree {es : List Employee} (h : (idsOf es).Nodup) :
    ∀ fuel {i : String} {d : Nat} {seen : List String}, i ∈ idsOf es →
      termAt es i d →
      (∀ s ∈ seen, ∃ k, 1 ≤ k ∧ ancestor es k i = some s) →
      okPaths seen (subtree es fuel i) = true := by
  intro fuel
  induction fuel with
  | zero =>
      intro i d seen hi ht hseen
      rw [subtree_zero, okPaths_mk]
      have hnotin : (getRecord es i).id ∉ seen := by
        rw [getRecord_id hi]
        intro hin
        rcases hseen i hin with ⟨k, hk1, hks⟩
        exact no_cycle_of_term ht k hk1 hks
      simp [hnotin, contains_iff]
  | succ f ih =>
      intro i d seen hi ht hseen
      rw [subtree_succ, okPaths_mk]
      have hnotin : (getRecord es i).id ∉ seen := by
        rw [getRecord_id hi]
        intro hin
        rcases hseen i hin with ⟨k, hk1, hks⟩
        exact no_cycle_of_term ht k hk1 hks
      rw [Bool.and_eq_true]
      constructor
      · simp [hnotin, contains_iff]
      · rw [List.all_eq_true]
        intro x hx
        rcases List.mem_map.mp hx with ⟨c, hc, rfl⟩
        have hpc : parentId es c = some i := (childIds_iff h).mp hc
        refine ih (childIds_mem_ids hc) (termAt_child hpc ht) ?_
        intro s hs
        rw [getRecord_id hi] at hs
        rcases List.mem_cons.mp hs with rfl | hrest
        · exact ⟨1, le_refl 1, by rw [ancestor_one]; exact hpc⟩
        · rcases hseen s hrest with ⟨k, hk1, hks⟩
          refine ⟨k + 1, by omega, ?_⟩
          have h1k : 1 + k = k + 1 := by omega
          rw [← h1k, ancestor_add, ancestor_one, hpc, Option.some_bind]
          exact hks

/-! ### Termination of a chain versus the ancestor iterate at full depth -/

theorem parentId_not_mem {es : List Employee} {j : String} (hj : j ∉ idsOf es) :
    parentId es j = none := by
  apply parentId_lookup_none
  rw [mapLookup_eq_none_iff]
  intro e he hid
  exact hj (List.mem_map.mpr ⟨e, he, hid⟩)

theorem exists_term_of_ancestor_none {es : List Employee} :
    ∀ {k j : _}, ancestor es k j = none → ∃ d, d < k ∧ termAt es j d := by
  intro k
  induction k with
  | zero =>
      intro j hjk
      rw [ancestor_zero] at hjk
      exact absurd hjk (by simp)
  | succ k ih =>
      intro j hjk
      cases hp : parentId es j with
      | none => exact ⟨0, by omega, j, ancestor_zero es j, hp⟩
      | some m =>
          have hstep : ancestor es (k + 1) j = ancestor es k m := by
            simp [ancestor, hp]
          rw [hstep] at hjk
          rcases ih hjk with ⟨d, hdk, ht⟩
          exact ⟨d + 1, by omega, termAt_child hp ht⟩

theorem ancestor_none_of_term {es : List Employee} {j : String} {d : Nat}
    (hj : j ∈ idsOf es) (h : termAt es j d) :
    ancestor es es.length j = none :=
  ancestor_none_mono (termAt_succ_none h) (term_card hj h)

theorem ancestor_self_loop {es : List Employee} {j : String}
    (hp : parentId es j = some j) : ∀ k, ancestor es k j = some j := by
  intro k
  induction k with
  | zero => exact ancestor_zero es j
  | succ k ih => simp [ancestor, hp, ih]

/-! ### The id multiset of the forest the page renders -/

theorem count_flatForest_unsorted {es : List Employee}
    (h : (idsOf es).Nodup) (j : String) :
    (flatForest ((rootIds es).map (subtree es es.length))).count j
      = if j ∈ idsOf es ∧ ancestor es es.length j = none then 1 else 0 := by
  rw [flatForest, List.map_map, List.count_flatten, List.map_map]
  by_cases hcond : j ∈ idsOf es ∧ ancestor es es.length j = none
  · rw [if_pos hcond]
    obtain ⟨hjids, hnone⟩ := hcond
    rcases exists_term_of_ancestor_none hnone with ⟨d, hdn, ht⟩
    have htc := ht
    rcases ht with ⟨r, hdr, hroot⟩
    have hrids : r ∈ idsOf es := ancestor_mem hjids hdr
    have hrroot : r ∈ rootIds es := (rootIds_iff h).mpr ⟨hrids, hroot⟩
    apply sum_map_eq_one (rootIds_nodup h) hrroot
    · show (flat (subtree es es.length r)).count j = 1
      exact count_flat_subtree_one h es.length hrids
        ⟨r, ancestor_zero es r, hroot⟩ (by omega) ⟨d, hdr⟩
    · intro r' hr' hne
      show (flat (subtree es es.length r')).count j = 0
      rcases (rootIds_iff h).mp hr' with ⟨hr'ids, hr'none⟩
      apply count_flat_subtree_zero h _ hr'ids
      intro m hm
      rcases Nat.lt_trichotomy m d with hlt | heq | hgt
      · have hm1 : ancestor es (m + 1) j = none :=
          termAt_succ_none ⟨r', hm, hr'none⟩
        have := ancestor_none_mono hm1 (show m + 1 ≤ d by omega)
        rw [this] at hdr
        exact absurd hdr (by simp)
      · subst heq
        rw [hdr] at hm
        have : r = r' := by injection hm
        exact hne (this ▸ rfl)
      · have hterm1 : ancestor es (d + 1) j = none := termAt_succ_none htc
        have := ancestor_none_mono hterm1 (show d + 1 ≤ m by omega)
        rw [this] at hm
        exact absurd hm (by simp)
  · rw [if_neg hcond]
    apply List.sum_eq_zero
    intro x hx
    rcases List.mem_map.mp hx with ⟨r, hrmem, rfl⟩
    rcases (rootIds_iff h).mp hrmem with ⟨hrids, hrnone⟩
    show (flat (subtree es es.length r)).count j = 0
    apply count_flat_subtree_zero h _ hrids
    intro m hm
    apply hcond
    have hjids : j ∈ idsOf es := by
      cases m with
      | zero =>
          rw [ancestor_zero] at hm
          have : j = r := by injection hm
          exact this ▸ hrids
      | succ m' =>
          cases hpj : parentId es j with
          | none =>
              have : ancestor es (m' + 1) j = none := by
                simp [ancestor, hpj]
              rw [this] at hm
              exact absurd hm (by simp)
          | some p => exact (parentId_mem hpj).1
    exact ⟨hjids, ancestor_none_of_term hjids ⟨r, hm, hrnone⟩⟩

theorem buildOrgChart_eq (employees : List Employee) (dept : String) :
    buildOrgChart employees dept
      = sortNodes ((rootIds (filterByDept employees dept)).map
          (subtree (filterByDept employees dept)
            (filterByDept employees dept).length)) := rfl

theorem count_flatForest_build (employees : List Employee) (dept j : String)
    (h : (idsOf (filterByDept employees dept)).Nodup) :
    (flatForest (buildOrgChart employees dept)).count j
      = if j ∈ idsOf (filterByDept employees dept)
          ∧ ancestor (filterByDept employees dept)
              (filterByDept employees dept).length j = none
        then 1 else 0 := by
  rw [buildOrgChart_eq]
  rw [List.Perm.count_eq (flatForest_sortNodes _)]
  exact count_flatForest_unsorted h j

/-! ### Roots of the returned forest -/

theorem subtree_emp (es : List Employee) (fuel : Nat) (i : String) :
    (subtree es fuel i).emp = getRecord es i := by
  cases fuel <;> rfl

theorem buildOrgChartFuel_eq (employees : List Employee) (dept : String)
    (fuel : Nat) :
    buildOrgChartFuel employees dept fuel
      = sortNodes ((rootIds (filterByDept employees dept)).map
          (subtree (filterByDept employees dept) fuel)) := rfl

theorem build_root_ids (employees : List Employee) (dept : String) :
    ((buildOrgChart employees dept).map (fun t => (OrgNode.emp t).id)).Perm
      (rootIds (filterByDept employees dept)) := by
  rw [buildOrgChart_eq]
  unfold sortNodes
  rw [List.map_map]
  have h1 : List.map ((fun t => (OrgNode.emp t).id) ∘ sortTree)
      (((rootIds (filterByDept employees dept)).map
        (subtree (filterByDept employees dept)
          (filterByDept employees dept).length)).mergeSort nodeLE)
      = List.map (fun t => (OrgNode.emp t).id)
        (((rootIds (filterByDept employees dept)).map
          (subtree (filterByDept employees dept)
            (filterByDept employees dept).length)).mergeSort nodeLE) :=
    List.map_congr_left (fun t _ => by simp [Function.comp, emp_sortTree])
  rw [h1]
  refine (List.Perm.map _ (List.mergeSort_perm _ nodeLE)).trans ?_
  rw [List.map_map]
  have h3 : List.map ((fun t => (OrgNode.emp t).id)
        ∘ subtree (filterByDept employees dept)
            (filterByDept employees dept).length)
      (rootIds (filterByDept employees dept))
      = List.map id (rootIds (filterByDept employees dept)) :=
    List.map_congr_left (fun r hr => by
      simp [Function.comp, subtree_emp, getRecord_id (rootIds_mem_ids hr)])
  rw [h3, List.map_id]

theorem isRoot_of_key_none {es : List Employee} {e : Employee}
    (hk : managerKey e = none) : isRoot es e = true := by
  unfold isRoot
  rw [hk]

theorem isRoot_iff_cond {es : List Employee} {e : Employee} :
    isRoot es e = true ↔
      (managerKey e = none ∨ ∀ m, managerKey e = some m → m ∉ idsOf es) := by
  unfold isRoot
  cases hk : managerKey e with
  | none => simp
  | some m =>
      simp only [Bool.not_eq_true']
      constructor
      · intro hh
        right
        intro m' hm'
        obtain rfl : m = m' := by injection hm'
        intro hmem
        rw [mapHas_iff.mpr hmem] at hh
        exact absurd hh (by simp)
      · intro hcond
        rcases hcond with hnone | hall
        · exact absurd hnone (by simp)
        · cases hmh : mapHas es m with
          | false => rfl
          | true => exact absurd (mapHas_iff.mp hmh) (hall m rfl)

theorem record_partition {es : List Employee} (h : (idsOf es).Nodup)
    {e : Employee} (he : e ∈ es) :
    (e.id ∈ rootIds es ∧ ∀ m, e.id ∉ childIds es m)
    ∨ (e.id ∉ rootIds es ∧ ∃ m, e.id ∈ childIds es m
        ∧ ∀ m', e.id ∈ childIds es m' → m' = m) := by
  have heids : e.id ∈ idsOf es := List.mem_map.mpr ⟨e, he, rfl⟩
  cases hp : parentId es e.id with
  | none =>
      left
      refine ⟨(rootIds_iff h).mpr ⟨heids, hp⟩, ?_⟩
      intro m hm
      have hcontra := (childIds_iff h).mp hm
      rw [hp] at hcontra
      exact absurd hcontra (by simp)
  | some m =>
      right
      refine ⟨?_, m, (childIds_iff h).mpr hp, ?_⟩
      · intro hr
        have hcontra := ((rootIds_iff h).mp hr).2
        rw [hp] at hcontra
        exact absurd hcontra (by simp)
      · intro m' hm'
        have hsome := (childIds_iff h).mp hm'
        rw [hp] at hsome
        have hmm : m = m' := by injection hsome
        exact hmm.symm

theorem idsOf_filterByDept_nodup (employees : List Employee) (dept : String)
    (h : (idsOf employees).Nodup) :
    (idsOf (filterByDept employees dept)).Nodup := by
  unfold filterByDept
  by_cases hd : dept = "all"
  · rw [if_pos hd]; exact h
  · rw [if_neg hd]
    exact List.Nodup.sublist
      (List.Sublist.map _ (List.filter_sublist employees)) h

/-! ## Claim theorems -/

/-- Claim C1, counterexample: in the two-element manager cycle
`[cycA, cycB]` the id "a" is in the filtered list but the returned forest
contains it zero times, not exactly once — cycle members are omitted, so the
claim fails as stated. -/
theorem c1_counterexample :
    "a" ∈ idsOf (filterByDept [cycA, cycB] "all")
    ∧ (flatForest (buildOrgChart [cycA, cycB] "all")).count "a" ≠ 1 := by
  constructor
  · decide
  · rw [count_flatForest_build [cycA, cycB] "all" "a" (by decide)]
    decide

/-- Claim C1 (amended): for an input list with unique ids, an id of the
filtered list appears exactly once in the returned forest if its resolvable
manager chain terminates, and zero times if that chain revisits itself (the
iterate of the parent step at the list's length is the terminating test). -/
theorem c1_exactly_once_iff_chain_terminates (employees : List Employee)
    (dept j : String) (h : (idsOf employees).Nodup)
    (hj : j ∈ idsOf (filterByDept employees dept)) :
    (flatForest (buildOrgChart employees dept)).count j
      = if ancestor (filterByDept employees dept)
            (filterByDept employees dept).length j = none
        then 1 else 0 := by
  rw [count_flatForest_build employees dept j
    (idsOf_filterByDept_nodup employees dept h)]
  by_cases hc : ancestor (filterByDept employees dept)
      (filterByDept employees dept).length j = none
  · rw [if_pos hc, if_pos ⟨hj, hc⟩]
  · rw [if_neg hc, if_neg (fun hand => hc hand.2)]

/-- Claim C1, witness: the amended theorem applied to the spec's worked
scenario at id "c". -/
theorem c1_witness :
    (flatForest (buildOrgChart demoEmployees "all")).count "c"
      = if ancestor (filterByDept demoEmployees "all")
            (filterByDept demoEmployees "all").length "c" = none
        then 1 else 0 :=
  c1_exactly_once_iff_chain_terminates demoEmployees "all" "c" (by decide)
    (by decide)

/-- Claim C2, counterexample: the self-managing record `selfX` is not
treated as a root — the returned forest is empty and the node was pushed into
its own children list. -/
theorem c2_counterexample :
    selfX.managerId = some selfX.id
    ∧ buildOrgChart [selfX] "all" = []
    ∧ childIds (filterByDept [selfX] "all") "x" = ["x"] := by
  refine ⟨rfl, ?_, by decide⟩
  rw [buildOrgChart_eq]
  have h1 : rootIds (filterByDept [selfX] "all") = [] := by decide
  rw [h1]
  simp [sortNodes, List.mergeSort_nil]

/-- Claim C2 (amended): under unique ids, a record naming itself as its own
manager is NOT treated as a root: it is excluded from the root list, its node
is appended to its own children sequence, and it is omitted from the returned
forest entirely (the build and sort still terminate). -/
theorem c2_self_manager_not_root (employees : List Employee) (dept : String)
    (e : Employee) (h : (idsOf employees).Nodup)
    (he : e ∈ filterByDept employees dept)
    (hself : managerKey e = some e.id) :
    e.id ∉ rootIds (filterByDept employees dept)
    ∧ e.id ∈ childIds (filterByDept employees dept) e.id
    ∧ (flatForest (buildOrgChart employees dept)).count e.id = 0 := by
  have hf := idsOf_filterByDept_nodup employees dept h
  have heids : e.id ∈ idsOf (filterByDept employees dept) :=
    List.mem_map.mpr ⟨e, he, rfl⟩
  have hp : parentId (filterByDept employees dept) e.id = some e.id :=
    (parentId_some_iff hf he).mpr ⟨hself, mapHas_iff.mpr heids⟩
  refine ⟨?_, (childIds_iff hf).mpr hp, ?_⟩
  · intro hr
    have hcontra := ((rootIds_iff hf).mp hr).2
    rw [hp] at hcontra
    exact absurd hcontra (by simp)
  · rw [count_flatForest_build employees dept e.id hf]
    rw [if_neg]
    rintro ⟨_, hnone⟩
    rw [ancestor_self_loop hp _] at hnone
    exact absurd hnone (by simp)

/-- Claim C2, witness: the amended theorem applied to the concrete
self-managing record. -/
theorem c2_witness :
    selfX.id ∉ rootIds (filterByDept [selfX] "all")
    ∧ selfX.id ∈ childIds (filterByDept [selfX] "all") selfX.id
    ∧ (flatForest (buildOrgChart [selfX] "all")).count selfX.id = 0 :=
  c2_self_manager_not_root [selfX] "all" selfX (by decide) (by decide)
    (by decide)

/-- Claim C3: for an input list with unique ids the build terminates with the
fuel it uses — any extra fuel yields the same forest — and in the returned
forest no root-to-node path revisits an id, even when the input manager graph
contains a cycle. -/
theorem c3_terminates_and_acyclic (employees : List Employee) (dept : String)
    (extra : Nat) (h : (idsOf employees).Nodup) :
    buildOrgChartFuel employees dept
        ((filterByDept employees dept).length + extra)
      = buildOrgChart employees dept
    ∧ (buildOrgChart employees dept).all (fun t => okPaths [] t) = true := by
  have hf := idsOf_filterByDept_nodup employees dept h
  constructor
  · rw [buildOrgChartFuel_eq, buildOrgChart_eq]
    congr 1
    apply List.map_congr_left
    intro r hr
    rcases (rootIds_iff hf).mp hr with ⟨hrids, hrnone⟩
    exact subtree_stable hf _ _ hrids ⟨r, ancestor_zero _ r, hrnone⟩
      (by omega) (by omega)
  · rw [buildOrgChart_eq]
    unfold sortNodes
    rw [List.all_eq_true]
    intro t ht
    rcases List.mem_map.mp ht with ⟨x, hx, rfl⟩
    rw [okPaths_sortTree]
    have hx' := (List.mergeSort_perm _ nodeLE).mem_iff.mp hx
    rcases List.mem_map.mp hx' with ⟨r, hr, rfl⟩
    rcases (rootIds_iff hf).mp hr with ⟨hrids, hrnone⟩
    exact okPaths_subtree hf _ hrids ⟨r, ancestor_zero _ r, hrnone⟩
      (fun s hs => absurd hs (List.not_mem_nil s))

/-- Claim C3, witness: the theorem applied to the spec's worked scenario with
three units of extra fuel. -/
theorem c3_witness :
    buildOrgChartFuel demoEmployees "all"
        ((filterByDept demoEmployees "all").length + 3)
      = buildOrgChart demoEmployees "all"
    ∧ (buildOrgChart demoEmployees "all").all (fun t => okPaths [] t)
        = true :=
  c3_terminates_and_acyclic demoEmployees "all" 3 (by decide)

/-- Claim C4, counterexample: on the duplicate-id input `[dupX, dupY]` the
builder raises nothing and silently merges: the attribute multiset of the
returned forest holds the name "Y" twice and the name "X" of the shadowed
first record not at all. -/
theorem c4_counterexample :
    dupX.id = dupY.id ∧ dupX.name ≠ dupY.name
    ∧ (flatForestWith (fun e => e.name)
        (buildOrgChart [dupX, dupY] "all")).count "X" = 0
    ∧ (flatForestWith (fun e => e.name)
        (buildOrgChart [dupX, dupY] "all")).count "Y" = 2 := by
  have key : ∀ jn : String,
      (flatForestWith (fun e => e.name)
          (buildOrgChart [dupX, dupY] "all")).count jn
        = (["Y", "Y"] : List String).count jn := by
    intro jn
    rw [buildOrgChart_eq]
    rw [List.Perm.count_eq (flatForestWith_sortNodes _ _)]
    have h1 : rootIds (filterByDept [dupX, dupY] "all") = ["a", "a"] := by
      decide
    have h2 : subtree (filterByDept [dupX, dupY] "all")
        (filterByDept [dupX, dupY] "all").length "a" = .mk dupY [] := rfl
    rw [h1]
    simp only [List.map_cons, List.map_nil]
    rw [h2]
    simp [flatForestWith, flatWith_mk, dupY]
  refine ⟨rfl, by decide, ?_, ?_⟩
  · rw [key]; decide
  · rw [key]; decide

/-- Claim C4 (amended): the builder never raises on duplicate ids; it
proceeds and silently merges.  For two root records sharing one id, the
lookup node carries the attributes of the LAST such record, that id is pushed
onto the root list once per input record, and the returned forest contains
the shared id twice. -/
theorem c4_no_error_last_record_wins (e₁ e₂ : Employee) (hid : e₁.id = e₂.id)
    (h1 : managerKey e₁ = none) (h2 : managerKey e₂ = none) :
    getRecord [e₁, e₂] e₁.id = e₂
    ∧ rootIds [e₁, e₂] = [e₂.id, e₂.id]
    ∧ (flatForest (buildOrgChart [e₁, e₂] "all")).count e₂.id = 2 := by
  have hl : mapLookup [e₁, e₂] e₁.id = some e₂ := by
    simp [mapLookup, hid]
  have hr1 : isRoot [e₁, e₂] e₁ = true := isRoot_of_key_none h1
  have hr2 : isRoot [e₁, e₂] e₂ = true := isRoot_of_key_none h2
  have hroots : rootIds [e₁, e₂] = [e₂.id, e₂.id] := by
    simp [rootIds, List.filter_cons, hr1, hr2, hid]
  refine ⟨by simp [getRecord, hl], hroots, ?_⟩
  have hfilter : filterByDept [e₁, e₂] "all" = [e₁, e₂] := rfl
  rw [buildOrgChart_eq]
  rw [List.Perm.count_eq (flatForest_sortNodes _)]
  rw [hfilter, hroots]
  have hchilds : ∀ m, childIds [e₁, e₂] m = [] := by
    intro m
    simp [childIds, List.filter_cons, hr1, hr2]
  have hlen : ([e₁, e₂] : List Employee).length = 2 := rfl
  rw [hlen]
  have h21 : (2 : Nat) = 1 + 1 := rfl
  have hsub : subtree [e₁, e₂] 2 e₂.id = .mk e₂ [] := by
    rw [h21, subtree_succ, hchilds]
    have hg : getRecord [e₁, e₂] e₂.id = e₂ := by
      simp [getRecord, mapLookup, hid]
    rw [hg]
    rfl
  simp [List.map, hsub, flatForest, flat_mk, List.count_cons]

/-- Claim C4, witness: the amended theorem applied to the concrete duplicate
pair. -/
theorem c4_witness :
    getRecord [dupX, dupY] dupX.id = dupY
    ∧ rootIds [dupX, dupY] = [dupY.id, dupY.id]
    ∧ (flatForest (buildOrgChart [dupX, dupY] "all")).count dupY.id = 2 :=
  c4_no_error_last_record_wins dupX dupY rfl rfl rfl

/-- Claim C5: in the returned forest every sibling list — the top-level root
list and the children of every node at every depth — is sorted by ascending
role priority (admin 0, manager 1, employee 2) with ascending name as the
tie-break, for every input and department selection. -/
theorem c5_sorted_at_every_depth (employees : List Employee) (dept : String) :
    sortedForestB (buildOrgChart employees dept) = true := by
  rw [buildOrgChart_eq]
  unfold sortNodes sortedForestB
  rw [Bool.and_eq_true]
  constructor
  · apply chainLE_of_pairwise
    exact List.Pairwise.map sortTree
      (fun a b hab => by rw [nodeLE_sortTree]; exact hab)
      (List.sorted_mergeSort nodeLE_trans nodeLE_total _)
  · rw [List.all_eq_true]
    intro t ht
    rcases List.mem_map.mp ht with ⟨x, _, rfl⟩
    exact sortedTreeB_sortTree x

/-- Claim C6, counterexample: record "x" carries `managerId` equal to the
empty string, and a record whose id IS the empty string is present in the
filtered list; the claim then requires "x" to be a child, yet the builder
treats the falsy empty reference as unset and makes "x" a root of the
returned forest. -/
theorem c6_counterexample :
    falsyX.managerId = some ""
    ∧ "" ∈ idsOf (filterByDept [emptyIdRec, falsyX] "all")
    ∧ "x" ∈ (buildOrgChart [emptyIdRec, falsyX] "all").map
        (fun t => (OrgNode.emp t).id) := by
  refine ⟨rfl, by decide, ?_⟩
  rw [(build_root_ids [emptyIdRec, falsyX] "all").mem_iff]
  decide

/-- Claim C6 (amended): under unique ids, a filtered record is a root of the
returned forest iff its manager reference is unset OR EMPTY, or does not
equal the id of any record in the filtered list; otherwise its node is
appended to the resolved manager's children sequence. -/
theorem c6_root_iff_unresolvable (employees : List Employee) (dept : String)
    (e : Employee) (h : (idsOf employees).Nodup)
    (he : e ∈ filterByDept employees dept) :
    ((e.id ∈ (buildOrgChart employees dept).map (fun t => (OrgNode.emp t).id))
      ↔ (managerKey e = none
          ∨ ∀ m, managerKey e = some m →
              m ∉ idsOf (filterByDept employees dept)))
    ∧ (∀ m, managerKey e = some m →
        m ∈ idsOf (filterByDept employees dept) →
        e.id ∈ childIds (filterByDept employees dept) m) := by
  have hf := idsOf_filterByDept_nodup employees dept h
  have heids : e.id ∈ idsOf (filterByDept employees dept) :=
    List.mem_map.mpr ⟨e, he, rfl⟩
  constructor
  · rw [(build_root_ids employees dept).mem_iff, rootIds_iff hf,
      parentId_none_iff_isRoot hf he, isRoot_iff_cond]
    constructor
    · rintro ⟨_, hcond⟩; exact hcond
    · intro hcond; exact ⟨heids, hcond⟩
  · intro m hk hm
    exact (childIds_iff hf).mpr
      ((parentId_some_iff hf he).mpr ⟨hk, mapHas_iff.mpr hm⟩)

/-- Claim C6, witness: the root-condition equivalence applied to the
cross-department scenario — the Sales employee whose manager sits in Eng is a
root of the Sales-filtered forest. -/
theorem c6_witness :
    (salesEmp.id ∈ (buildOrgChart [engMgr, salesEmp] "Sales").map
        (fun t => (OrgNode.emp t).id))
      ↔ (managerKey salesEmp = none
          ∨ ∀ m, managerKey salesEmp = some m →
              m ∉ idsOf (filterByDept [engMgr, salesEmp] "Sales")) :=
  (c6_root_iff_unresolvable [engMgr, salesEmp] "Sales" salesEmp (by decide)
    (by decide)).1

/-- Claim C7: the department filter returns the snapshot unchanged for the
sentinel "all", and otherwise exactly the subsequence of records whose
department equals the selection; it always preserves the input order (its
result is a sublist of the input) and, being a plain function of its
arguments in this embedding, it is pure and deterministic. -/
theorem c7_department_filter (employees : List Employee) (dept : String) :
    (dept = "all" → filterByDept employees dept = employees)
    ∧ (dept ≠ "all" →
        filterByDept employees dept
          = employees.filter (fun e => e.department == dept)
        ∧ (∀ e, e ∈ filterByDept employees dept ↔
            e ∈ employees ∧ e.department = dept))
    ∧ (filterByDept employees dept).Sublist employees := by
  refine ⟨?_, ?_, ?_⟩
  · intro hd; unfold filterByDept; rw [if_pos hd]
  · intro hd
    constructor
    · unfold filterByDept; rw [if_neg hd]
    · intro e
      unfold filterByDept
      rw [if_neg hd, List.mem_filter]
      simp [beq_iff_eq]
  · unfold filterByDept
    by_cases hd : dept = "all"
    · rw [if_pos hd]
    · rw [if_neg hd]; exact List.filter_sublist employees

/-- Claim C7, witness: the filter contract applied to the concrete
cross-department snapshot, for a department selection and for the
sentinel. -/
theorem c7_witness :
    filterByDept [engMgr, salesEmp] "Sales"
        = [engMgr, salesEmp].filter (fun e => e.department == "Sales")
    ∧ filterByDept [engMgr, salesEmp] "all" = [engMgr, salesEmp] :=
  ⟨((c7_department_filter [engMgr, salesEmp] "Sales").2.1 (by decide)).1,
    (c7_department_filter [engMgr, salesEmp] "all").1 rfl⟩

/-- Claim C8: rebuilding the forest — directly, after a snapshot change, or
after a department change — leaves the expansion set untouched: an id is
reported expanded after the rebuild iff it was expanded before, because the
set is keyed by the stable employee id. -/
theorem c8_expansion_survives_rebuild (s : OrgState) (es : List Employee)
    (dept i : String) :
    isExpanded (rebuildChart s) i = isExpanded s i
    ∧ isExpanded (setEmployees s es) i = isExpanded s i
    ∧ isExpanded (setSelectedDepartment s dept) i = isExpanded s i :=
  ⟨rfl, rfl, rfl⟩

/-- Claim C9: the summary counters are computed from the unfiltered snapshot
and its department list only — two runs over the same snapshot that differ
only in the selected department produce identical stats, and a rebuild alone
never changes them. -/
theorem c9_stats_filter_independent (s : OrgState) (d₁ d₂ : String) :
    stats (setSelectedDepartment s d₁) = stats (setSelectedDepartment s d₂)
    ∧ stats (rebuildChart s) = stats s :=
  ⟨rfl, rfl⟩

/-- Claim C10: under unique ids every id occurs at most once in the returned
forest (cycle members are absent, never duplicated), and every filtered
record is attached exactly once in the flat structure: either it is on the
root list and in no children sequence, or it is off the root list and in the
children sequence of exactly one manager id. -/
theorem c10_no_duplication (employees : List Employee) (dept j : String)
    (e : Employee) (h : (idsOf employees).Nodup)
    (he : e ∈ filterByDept employees dept) :
    (flatForest (buildOrgChart employees dept)).count j ≤ 1
    ∧ ((e.id ∈ rootIds (filterByDept employees dept)
          ∧ ∀ m, e.id ∉ childIds (filterByDept employees dept) m)
        ∨ (e.id ∉ rootIds (filterByDept employees dept)
            ∧ ∃ m, e.id ∈ childIds (filterByDept employees dept) m
              ∧ ∀ m', e.id ∈ childIds (filterByDept employees dept) m'
                  → m' = m)) := by
  have hf := idsOf_filterByDept_nodup employees dept h
  constructor
  · rw [count_flatForest_build employees dept j hf]
    split_ifs <;> omega
  · exact record_partition hf he

/-- Claim C10, witness: the at-most-once bound and the unique-attachment
partition on the two-element cycle input. -/
theorem c10_witness :
    (flatForest (buildOrgChart [cycA, cycB] "all")).count "b" ≤ 1
    ∧ ((cycA.id ∈ rootIds (filterByDept [cycA, cycB] "all")
          ∧ ∀ m, cycA.id ∉ childIds (filterByDept [cycA, cycB] "all") m)
        ∨ (cycA.id ∉ rootIds (filterByDept [cycA, cycB] "all")
            ∧ ∃ m, cycA.id ∈ childIds (filterByDept [cycA, cycB] "all") m
              ∧ ∀ m', cycA.id ∈ childIds (filterByDept [cycA, cycB] "all") m'
                  → m' = m)) :=
  c10_no_duplication [cycA, cycB] "all" "b" cycA (by decide) (by decide)

end Org
